import Mathlib

/-!
# DS18B20 temperature reader (`src/DS18B20/temp.go`)

A shallow embedding of `TempSensor.TempF` (read, split, validate, parse, convert), of the
loop of `TempSensor.WatchF` (poll, de-duplicate, report) and of `TempSensors` (discovery),
followed by the properties proved about them.

Conventions of the embedding:

* a file content is a list of bytes (`Bytes`);
* a Go `error` is represented by its message (`GoError`), `nil` by `none`;
* a call either returns or panics (`Outcome`);
* a `float64` is a finite value, an infinity or NaN (`F64`); every arithmetic operation
  computes the exact rational result and rounds it to the nearest binary64 value, ties to even.
-/

namespace DS18B20

/-! ## Bytes and errors -/

/-- A Go byte slice. -/
abbrev Bytes := List UInt8

/-- A Go `error` value, represented by its message. -/
abbrev GoError := String

/-- The outcome of a Go call: it returns a value, or it panics with a run-time error. -/
inductive Outcome (α : Type) where
  | ret (a : α)
  | panic (msg : String)
  deriving DecidableEq, Repr

/-- The bytes of an ASCII string literal such as `"YES"` or `"\n"`. -/
def ascii (s : String) : Bytes := s.toList.map (fun c => c.toNat.toUInt8)

/-- The Go conversion `string(b)` for a byte slice holding ASCII bytes. -/
def goString (b : Bytes) : String := String.mk (b.map (fun x => Char.ofNat x.toNat))

/-- The newline byte, the separator `[]byte("\n")` of `TempF`. -/
def nl : UInt8 := 10

/-- Go `bytes.Split(s, sep)` for a one-byte separator: the pieces of `s` between the
occurrences of `sep`, empty pieces included; an `s` without separator gives the one piece `s`. -/
def bytes_Split (sep : UInt8) : Bytes → List Bytes
  | [] => [[]]
  | c :: cs =>
    if c = sep then [] :: bytes_Split sep cs
    else
      match bytes_Split sep cs with
      | [] => [[c]]
      | l :: ls => (c :: l) :: ls

/-- Go `bytes.HasSuffix(s, suffix)`. -/
def bytes_HasSuffix (s suffix : Bytes) : Bool := suffix.isSuffixOf s

/-- The loop of `TempF` (lines 30-37): the pieces of the content between newlines, the
empty ones skipped. -/
def nonEmptyLines (b : Bytes) : List Bytes :=
  (bytes_Split nl b).filter (fun l => l.length != 0)

/-! ## The pattern `re_data` -/

/-- The class `[0-9]` on bytes. -/
def isDigit (b : UInt8) : Bool := decide (48 ≤ b.toNat) && decide (b.toNat ≤ 57)

/-- The longest run of digits that ends a line. -/
def trailingDigits (line : Bytes) : Bytes := (line.reverse.takeWhile isDigit).reverse

/-- What stands before the trailing run of digits of a line. -/
def beforeDigits (line : Bytes) : Bytes := (line.reverse.dropWhile isDigit).reverse

/-- The call `re_data.FindSubmatch(line)` for `re_data = ^.*t=([0-9]*)$` (no flags: `.` is any
byte but a newline, `^` and `$` are the two ends of the text). The result is the nil slice
(here `[]`) when the line does not match, and the whole match followed by the text of the one
capture group when it does. A line matches when it is some newline-free text, then `t=`, then
digits up to its end; those digits are then the whole trailing run of digits of the line. -/
def re_data_FindSubmatch (line : Bytes) : List Bytes :=
  if bytes_HasSuffix (beforeDigits line) (ascii "t=") && !(beforeDigits line).contains nl then
    [line, trailingDigits line]
  else []

/-- The language of `^.*t=([0-9]*)$`: some newline-free text, then `t=`, then digits only. -/
def MatchesData (line : Bytes) : Prop :=
  ∃ p ds, line = p ++ ascii "t=" ++ ds ∧ (∀ d ∈ ds, isDigit d = true) ∧ nl ∉ p

/-! ## `float64` -/

/-- A Go `float64`. The two zeros are one value `fin 0`: `==` does not tell them apart and no
operation of this program does. -/
inductive F64 where
  | fin (q : ℚ)
  | inf (neg : Bool)
  | nan
  deriving DecidableEq

namespace F64

/-- Number of binary digits of a natural number, by halving (`fuel` bounds the steps). -/
def bitLenAux : Nat → Nat → Nat
  | 0, _ => 0
  | fuel + 1, n => if n = 0 then 0 else bitLenAux fuel (n / 2) + 1

/-- Number of binary digits of `n`: `0` for `0`, else the `k` with `2^(k-1) ≤ n < 2^k`. -/
def bitLen (n : Nat) : Nat := bitLenAux n n

/-- For `0 < q`, the exponent `e` with `2^e ≤ q < 2^(e+1)`. -/
def floorLog2 (q : ℚ) : ℤ :=
  let e0 : ℤ := (bitLen q.num.natAbs : ℤ) - (bitLen q.den : ℤ)
  if (2 : ℚ) ^ e0 ≤ q then e0 else e0 - 1

/-- Nearest integer, a tie going to the even one. -/
def roundHalfEven (x : ℚ) : ℤ :=
  let n := ⌊x⌋
  let r := x - n
  if r < 1 / 2 then n else if 1 / 2 < r then n + 1 else if n % 2 = 0 then n else n + 1

/-- The binary64 value nearest to `q` for `0 < q`, ties to even, or `none` when that rounding
leaves the finite range. The spacing of the binary64 values around `q` is `2^p` with
`p = max (floorLog2 q - 52) (-1074)`: 53 significant bits, and the subnormal spacing below
`2^(-1022)`. -/
def roundMag (q : ℚ) : Option ℚ :=
  let p := max (floorLog2 q - 52) (-1074)
  let r := (roundHalfEven (q / 2 ^ p) : ℚ) * 2 ^ p
  if r < 2 ^ 1024 then some r else none

/-- Rounding of an exact result to `float64`: nearest value, ties to even, overflow to the
infinity of the same sign. -/
def round (q : ℚ) : F64 :=
  if q = 0 then fin 0
  else
    match roundMag |q| with
    | some r => fin (if q < 0 then -r else r)
    | none => inf (decide (q < 0))

/-- Go `x + y` on `float64`. -/
def add : F64 → F64 → F64
  | fin a, fin b => round (a + b)
  | fin _, inf s => inf s
  | inf s, fin _ => inf s
  | inf s, inf t => if s = t then inf s else nan
  | _, _ => nan

/-- Go `x * y` on `float64`. -/
def mul : F64 → F64 → F64
  | fin a, fin b => round (a * b)
  | fin a, inf s => if a = 0 then nan else inf (xor s (decide (a < 0)))
  | inf s, fin b => if b = 0 then nan else inf (xor s (decide (b < 0)))
  | inf s, inf t => inf (xor s t)
  | _, _ => nan

/-- Go `x / y` on `float64`; a zero divisor is taken as `+0`. -/
def div : F64 → F64 → F64
  | fin a, fin b =>
    if b = 0 then (if a = 0 then nan else inf (decide (a < 0))) else round (a / b)
  | fin _, inf _ => fin 0
  | inf s, fin b => inf (xor s (decide (b < 0)))
  | inf _, inf _ => nan
  | _, _ => nan

/-- Go `x != y` on `float64`: NaN differs from everything, itself included. -/
def ne : F64 → F64 → Bool
  | nan, _ => true
  | _, nan => true
  | a, b => decide (a ≠ b)

/-- The largest finite `float64`, `(2^53 - 1) * 2^971`. -/
def maxFinite : ℚ := (2 ^ 53 - 1) * 2 ^ 971

end F64

/-- The value of a run of ASCII digits read in base ten. -/
def decimalValue (s : Bytes) : Nat := s.foldl (fun acc b => 10 * acc + (b.toNat - 48)) 0

/-- Go `strconv.ParseFloat(s, 64)` on the strings `TempF` passes to it, the text of the capture
group `([0-9]*)`: runs of ASCII digits. The empty string is a syntax error; a run of digits
gives the nearest `float64`, and a range error together with the infinity when that is not
finite. Strings with any other byte are outside this model (they are given the syntax error). -/
def strconv_ParseFloat (s : Bytes) : F64 × Option GoError :=
  if s.isEmpty || !s.all isDigit then
    (F64.fin 0, some ("strconv.ParseFloat: parsing \"" ++ goString s ++ "\": invalid syntax"))
  else
    match F64.round (decimalValue s) with
    | F64.fin q => (F64.fin q, none)
    | v => (v, some ("strconv.ParseFloat: parsing \"" ++ goString s ++ "\": value out of range"))

/-! ## `TempF` -/

/-- The slice expression `s[1:]`: it panics on a slice shorter than one element, the nil slice
included. -/
def sliceFrom1 {α : Type} (s : List α) : Outcome (List α) :=
  if 1 ≤ s.length then Outcome.ret (s.drop 1)
  else Outcome.panic "runtime error: slice bounds out of range [1:0]"

/-- Go `fmt.Errorf("expected 2 data lines, got %d", l)`. -/
def errLineCount (l : Nat) : GoError := "expected 2 data lines, got " ++ toString l

/-- Go `fmt.Errorf("invalid data value: %v", string(match))`. -/
def errDataValue (m : Bytes) : GoError := "invalid data value: " ++ goString m

/-- Lines 54-55 of `TempF`: `cel := v / 1000.0; far := cel*9.0/5.0 + 32.0`. -/
def toFahrenheit (v : F64) : F64 :=
  let cel := F64.div v (F64.fin 1000)
  F64.add (F64.div (F64.mul cel (F64.fin 9)) (F64.fin 5)) (F64.fin 32)

/-- The method `TempSensor.TempF`, as a function of what `ioutil.ReadFile(t.source)` gives:
`Except.error err` when the file cannot be read, `Except.ok b` with its content otherwise. -/
def TempF (file : Except GoError Bytes) : Outcome (F64 × Option GoError) :=
  match file with
  | Except.error err => Outcome.ret (F64.fin 0, some err)
  | Except.ok b =>
    let lines := nonEmptyLines b
    match lines with
    | [] => Outcome.panic "runtime error: index out of range [0] with length 0"
    | l0 :: rest =>
      if !bytes_HasSuffix l0 (ascii "YES") then
        Outcome.ret (F64.fin 0, some "not ready to read")
      else if lines.length ≠ 2 then
        Outcome.ret (F64.fin 0, some (errLineCount lines.length))
      else
        match rest with
        | [] => Outcome.panic "runtime error: index out of range [1] with length 1"
        | l1 :: _ =>
          match sliceFrom1 (re_data_FindSubmatch l1) with
          | Outcome.panic msg => Outcome.panic msg
          | Outcome.ret ms =>
            match ms with
            | [] => Outcome.ret (F64.fin 0, some "invalid data line")
            | m :: _ =>
              match strconv_ParseFloat m with
              | (_, some _) => Outcome.ret (F64.fin 0, some (errDataValue m))
              | (v, none) => Outcome.ret (toFahrenheit v, none)

/-! ## `WatchF` -/

/-- One send of the goroutine of `WatchF`, on `tempchan` or on `errchan`. -/
inductive Send where
  | temp (v : F64)
  | err (e : GoError)
  deriving DecidableEq

/-- One iteration of the loop of `WatchF` (lines 66-72) on what `t.TempF()` returned: the new
value of `last` and the sends of this iteration. -/
def WatchF_body (last : F64) (r : F64 × Option GoError) : F64 × List Send :=
  match r.2 with
  | some e => (last, [Send.err e])
  | none => if F64.ne last r.1 then (r.1, [Send.temp r.1]) else (last, [])

/-- The loop of `WatchF` over the outcomes of the successive `t.TempF()` calls, one per tick,
from a given `last`: the final `last` and the sends in order. A call that panics ends the
program, so nothing after it is processed. -/
def WatchF_loop : F64 → List (Outcome (F64 × Option GoError)) → F64 × List Send
  | last, [] => (last, [])
  | last, Outcome.panic _ :: _ => (last, [])
  | last, Outcome.ret r :: rs =>
    ((WatchF_loop (WatchF_body last r).1 rs).1,
      (WatchF_body last r).2 ++ (WatchF_loop (WatchF_body last r).1 rs).2)

/-- The goroutine of `WatchF` on the file reads of the successive ticks: `var last float64`
starts at zero and every tick calls `TempF`. -/
def WatchF (reads : List (Except GoError Bytes)) : F64 × List Send :=
  WatchF_loop (F64.fin 0) (reads.map TempF)

/-- The values received from `tempchan`, in order. -/
def tempSeq (sends : List Send) : List F64 :=
  sends.filterMap (fun s => match s with | Send.temp v => some v | Send.err _ => none)

/-- The errors received from `errchan`, in order. -/
def errSeq (sends : List Send) : List GoError :=
  sends.filterMap (fun s => match s with | Send.err e => some e | Send.temp _ => none)

/-- Ticks at which `TempF` returned the given results. -/
def returned (rs : List (F64 × Option GoError)) : List (Outcome (F64 × Option GoError)) :=
  rs.map Outcome.ret

/-- Ticks at which `TempF` succeeded with the given readings. -/
def readings (vs : List F64) : List (Outcome (F64 × Option GoError)) :=
  vs.map (fun v => Outcome.ret (v, none))

/-- The change sequence in the words of the specification, for successful readings only: a
reading is emitted exactly when it differs from `last` (by the `!=` of `float64`), and `last`
then becomes that reading. -/
def changesSpec : F64 → List F64 → List F64
  | _, [] => []
  | last, v :: vs => if F64.ne last v then v :: changesSpec v vs else changesSpec last vs

/-- A tick at which `TempF` returned an error. -/
def isFailure (r : F64 × Option GoError) : Bool := r.2.isSome

/-! ## `TempSensors` -/

/-- The constant `DIR_DEVICES`. -/
def DIR_DEVICES : String := "/sys/bus/w1/devices/"

/-- The type `TempSensor`. -/
structure TempSensor where
  source : String
  deriving DecidableEq

/-- The function `NewTempSensor`. -/
def NewTempSensor (source : String) : TempSensor := TempSensor.mk source

/-- Go `strings.HasPrefix(s, p)`. -/
def strings_HasPrefix (s p : String) : Bool := p.toList.isPrefixOf s.toList

/-- Go `path.Join(DIR_DEVICES, name, "w1_slave")` for the name of a directory entry (it holds no
slash and is neither `.` nor `..`): the elements joined by single slashes. -/
def sensorPath (name : String) : String := DIR_DEVICES ++ name ++ "/w1_slave"

/-- The function `TempSensors`, as a function of the file system: `readDir` is what
`ioutil.ReadDir(DIR_DEVICES)` gives (an error, or the names of the entries), and `statNotExist`
tells for a path whether `os.Stat` fails on it with a does-not-exist error. The result is the
pair of the sensor list and the error that the Go function returns. -/
def TempSensors (readDir : Except GoError (List String)) (statNotExist : String → Bool) :
    List TempSensor × Option GoError :=
  match readDir with
  | Except.error err => ([], some err)
  | Except.ok fis =>
    (fis.foldl
      (fun sensors name =>
        if !strings_HasPrefix name "28-" then sensors
        else if statNotExist (sensorPath name) then sensors
        else sensors ++ [NewTempSensor (sensorPath name)])
      [], none)

/-! ## Properties of the `float64` rounding -/

namespace F64

theorem bitLenAux_zero (fuel : Nat) : bitLenAux fuel 0 = 0 := by
  cases fuel <;> simp [bitLenAux]

theorem bitLenAux_bounds (fuel : Nat) :
    ∀ n, n ≤ fuel → 0 < n →
      1 ≤ bitLenAux fuel n ∧ 2 ^ (bitLenAux fuel n - 1) ≤ n ∧ n < 2 ^ bitLenAux fuel n := by
  induction fuel with
  | zero => intro n h1 h2; omega
  | succ fuel ih =>
    intro n hle hpos
    have hn : n ≠ 0 := by omega
    simp only [bitLenAux, hn, if_false]
    by_cases h2 : n / 2 = 0
    · have h1 : n = 1 := by omega
      subst h1
      simp [bitLenAux_zero]
    · obtain ⟨hk, hlo, hhi⟩ := ih (n / 2) (by omega) (by omega)
      generalize bitLenAux fuel (n / 2) = k at hk hlo hhi
      obtain ⟨j, rfl⟩ : ∃ j, k = j + 1 := ⟨k - 1, by omega⟩
      simp only [Nat.add_sub_cancel] at hlo ⊢
      rw [pow_succ] at hhi ⊢
      rw [pow_succ]
      omega

theorem bitLen_bounds (n : Nat) (h : 0 < n) :
    1 ≤ bitLen n ∧ 2 ^ (bitLen n - 1) ≤ n ∧ n < 2 ^ bitLen n :=
  bitLenAux_bounds n n le_rfl h

theorem floorLog2_le (q : ℚ) (hq : 0 < q) : (2 : ℚ) ^ floorLog2 q ≤ q := by
  unfold floorLog2
  simp only
  split_ifs with h
  · exact h
  · have hnum : 0 < q.num := Rat.num_pos.mpr hq
    have hnat : 0 < q.num.natAbs := Int.natAbs_pos.mpr hnum.ne'
    obtain ⟨ha1, halo, _⟩ := bitLen_bounds _ hnat
    obtain ⟨_, _, hbhi⟩ := bitLen_bounds _ q.den_pos
    generalize bitLen q.num.natAbs = a at ha1 halo
    generalize bitLen q.den = b at hbhi
    obtain ⟨j, rfl⟩ : ∃ j, a = j + 1 := ⟨a - 1, by omega⟩
    simp only [Nat.add_sub_cancel] at halo
    have e1 : ((j + 1 : ℕ) : ℤ) - (b : ℤ) - 1 = (j : ℤ) - (b : ℤ) := by push_cast; ring
    rw [e1, zpow_sub₀ (by norm_num : (2 : ℚ) ≠ 0), zpow_natCast, zpow_natCast]
    have hq' : q = (q.num.natAbs : ℚ) / (q.den : ℚ) := by
      have hnn : ((q.num.natAbs : ℕ) : ℚ) = (q.num : ℚ) := by
        rw [← Int.cast_natCast, Int.natAbs_of_nonneg hnum.le]
      rw [hnn]
      exact (Rat.num_div_den q).symm
    rw [hq']
    have hden : (0 : ℚ) < q.den := by exact_mod_cast q.den_pos
    have h1 : ((2 : ℚ) ^ j) ≤ (q.num.natAbs : ℚ) := by exact_mod_cast halo
    have h2 : (q.den : ℚ) ≤ (2 : ℚ) ^ b := by exact_mod_cast hbhi.le
    exact div_le_div₀ (by positivity) h1 hden h2

theorem roundHalfEven_le (x : ℚ) (K : ℤ) (h : x ≤ K) : roundHalfEven x ≤ K := by
  have hfl : ⌊x⌋ ≤ K := by
    have := Int.floor_le x
    exact_mod_cast this.trans h
  unfold roundHalfEven
  simp only
  have key : ¬ (x - ⌊x⌋ < 1 / 2) → ⌊x⌋ + 1 ≤ K := by
    intro hr
    by_contra hc
    have hK : ⌊x⌋ = K := by omega
    rw [hK] at hr
    apply hr
    linarith
  split_ifs with h1 h2 h3
  · exact hfl
  · exact key h1
  · exact hfl
  · exact key h1

theorem round_finite (q : ℚ) (h0 : 0 ≤ q) (hmax : q ≤ maxFinite) : ∃ r, round q = fin r := by
  unfold round
  by_cases hq : q = 0
  · exact ⟨0, by simp [hq]⟩
  · have hpos : 0 < q := lt_of_le_of_ne h0 (Ne.symm hq)
    simp only [hq, if_false, abs_of_pos hpos, not_lt.mpr h0]
    have hlog := floorLog2_le q hpos
    have he : floorLog2 q ≤ 1023 := by
      by_contra hc
      have h1 : (2 : ℚ) ^ (1024 : ℤ) ≤ 2 ^ floorLog2 q :=
        zpow_le_zpow_right₀ (by norm_num) (by omega)
      have h2 : maxFinite < (2 : ℚ) ^ (1024 : ℤ) := by
        unfold maxFinite; norm_num
      linarith
    have hfin : ∃ r, roundMag q = some r := by
      unfold roundMag
      simp only
      generalize hp : max (floorLog2 q - 52) (-1074) = p
      have hp971 : p ≤ 971 := by rw [← hp]; omega
      obtain ⟨d, hd⟩ : ∃ d : ℕ, (971 : ℤ) - p = d := ⟨(971 - p).toNat, by omega⟩
      have h2p : (0 : ℚ) < 2 ^ p := by positivity
      have hK : q / 2 ^ p ≤ (((2 ^ 53 - 1) * 2 ^ d : ℤ) : ℚ) := by
        rw [div_le_iff₀ h2p]
        push_cast
        have : ((2 : ℚ) ^ d) * 2 ^ p = 2 ^ (971 : ℕ) := by
          rw [← zpow_natCast, ← zpow_natCast, ← zpow_add₀ (by norm_num : (2 : ℚ) ≠ 0)]
          congr 1
          omega
        rw [mul_assoc, this]
        unfold maxFinite at hmax
        norm_num at hmax ⊢
        exact hmax
      have hr := roundHalfEven_le _ _ hK
      have hr' : ((roundHalfEven (q / 2 ^ p) : ℤ) : ℚ) ≤ (((2 ^ 53 - 1) * 2 ^ d : ℤ) : ℚ) := by
        exact_mod_cast hr
      have : ((roundHalfEven (q / 2 ^ p) : ℤ) : ℚ) * 2 ^ p < 2 ^ 1024 := by
        have h3 : ((roundHalfEven (q / 2 ^ p) : ℤ) : ℚ) * 2 ^ p
            ≤ (((2 ^ 53 - 1) * 2 ^ d : ℤ) : ℚ) * 2 ^ p :=
          mul_le_mul_of_nonneg_right hr' h2p.le
        have h4 : (((2 ^ 53 - 1) * 2 ^ d : ℤ) : ℚ) * 2 ^ p = maxFinite := by
          push_cast
          have : ((2 : ℚ) ^ d) * 2 ^ p = 2 ^ (971 : ℕ) := by
            rw [← zpow_natCast, ← zpow_natCast, ← zpow_add₀ (by norm_num : (2 : ℚ) ≠ 0)]
            congr 1
            omega
          rw [mul_assoc, this]
          unfold maxFinite
          norm_num
        have h5 : maxFinite < (2 : ℚ) ^ 1024 := by unfold maxFinite; norm_num
        exact lt_of_le_of_lt (h3.trans h4.le) h5
      exact ⟨_, if_pos this⟩
    obtain ⟨r, hr⟩ := hfin
    exact ⟨r, by rw [hr]⟩

end F64

/-! ## Properties of the split and of the pattern -/

theorem ascii_t_eq : ascii "t=" = [116, 61] := by decide

theorem bytes_Split_ne_nil (sep : UInt8) (b : Bytes) : bytes_Split sep b ≠ [] := by
  cases b with
  | nil => simp [bytes_Split]
  | cons c cs =>
    unfold bytes_Split
    split_ifs
    · simp
    · split <;> simp

theorem bytes_Split_no_sep (sep : UInt8) (b : Bytes) : ∀ l ∈ bytes_Split sep b, sep ∉ l := by
  induction b with
  | nil => intro l hl; simp [bytes_Split] at hl; simp [hl]
  | cons c cs ih =>
    intro l hl
    unfold bytes_Split at hl
    split_ifs at hl with hc
    · rcases List.mem_cons.mp hl with h | h
      · simp [h]
      · exact ih l h
    · split at hl
      · simp at hl
        subst hl
        simp [Ne.symm hc]
      · rename_i l0 ls heq
        rcases List.mem_cons.mp hl with h | h
        · subst h
          have := ih l0 (by rw [heq]; simp)
          simp [Ne.symm hc, this]
        · exact ih l (by rw [heq]; simp [h])

theorem nonEmptyLines_no_nl (b : Bytes) : ∀ l ∈ nonEmptyLines b, nl ∉ l := by
  intro l hl
  exact bytes_Split_no_sep nl b l (List.mem_filter.mp hl).1

theorem before_append_trailing (line : Bytes) :
    beforeDigits line ++ trailingDigits line = line := by
  unfold beforeDigits trailingDigits
  rw [← List.reverse_append, List.takeWhile_append_dropWhile, List.reverse_reverse]

theorem trailingDigits_isDigit (line : Bytes) : ∀ d ∈ trailingDigits line, isDigit d = true := by
  intro d hd
  unfold trailingDigits at hd
  exact (List.mem_takeWhile_imp (List.mem_reverse.mp hd))

theorem trailingDigits_append (q ds : Bytes) (c : UInt8) (hc : isDigit c = false)
    (hdig : ∀ d ∈ ds, isDigit d = true) : trailingDigits (q ++ [c] ++ ds) = ds := by
  unfold trailingDigits
  have h : ∀ a ∈ ds.reverse, isDigit a = true := fun a ha => hdig a (List.mem_reverse.mp ha)
  simp only [List.reverse_append, List.append_assoc, List.reverse_cons, List.reverse_nil,
    List.nil_append, List.singleton_append]
  rw [List.takeWhile_append_of_pos h]
  simp [hc]

theorem beforeDigits_append (q ds : Bytes) (c : UInt8) (hc : isDigit c = false)
    (hdig : ∀ d ∈ ds, isDigit d = true) : beforeDigits (q ++ [c] ++ ds) = q ++ [c] := by
  unfold beforeDigits
  have h : ∀ a ∈ ds.reverse, isDigit a = true := fun a ha => hdig a (List.mem_reverse.mp ha)
  simp only [List.reverse_append, List.append_assoc, List.reverse_cons, List.reverse_nil,
    List.nil_append, List.singleton_append]
  rw [List.dropWhile_append_of_pos h]
  simp [hc]

theorem FindSubmatch_of_match (p ds : Bytes) (hdig : ∀ d ∈ ds, isDigit d = true)
    (hp : nl ∉ p) :
    re_data_FindSubmatch (p ++ ascii "t=" ++ ds) = [p ++ ascii "t=" ++ ds, ds] := by
  have e : p ++ ascii "t=" ++ ds = (p ++ [116]) ++ [61] ++ ds := by simp [ascii_t_eq]
  have hb := beforeDigits_append (p ++ [116]) ds 61 (by decide) hdig
  have ht := trailingDigits_append (p ++ [116]) ds 61 (by decide) hdig
  unfold re_data_FindSubmatch
  rw [e, hb, ht]
  have h1 : bytes_HasSuffix (p ++ [116] ++ [61]) (ascii "t=") = true := by
    unfold bytes_HasSuffix
    rw [List.isSuffixOf_iff_suffix, ascii_t_eq]
    exact ⟨p, by simp⟩
  have h2 : (p ++ [116] ++ [61]).contains nl = false := by
    rw [Bool.eq_false_iff]
    intro h
    have := List.elem_iff.mp h
    simp only [List.mem_append, List.mem_singleton] at this
    rcases this with (h | h) | h
    · exact hp h
    · exact absurd h (by decide)
    · exact absurd h (by decide)
  rw [h1, h2]
  rfl

theorem FindSubmatch_eq_nil_iff (line : Bytes) :
    re_data_FindSubmatch line = [] ↔ ¬ MatchesData line := by
  constructor
  · rintro h ⟨p, ds, rfl, hdig, hp⟩
    rw [FindSubmatch_of_match p ds hdig hp] at h
    simp at h
  · intro h
    unfold re_data_FindSubmatch
    split_ifs with hc
    · exfalso
      apply h
      rw [Bool.and_eq_true] at hc
      obtain ⟨hs, hn⟩ := hc
      unfold bytes_HasSuffix at hs
      rw [List.isSuffixOf_iff_suffix] at hs
      obtain ⟨p, hp⟩ := hs
      refine ⟨p, trailingDigits line, ?_, trailingDigits_isDigit line, ?_⟩
      · rw [hp, before_append_trailing]
      · intro hmem
        have : nl ∈ beforeDigits line := by rw [← hp]; simp [hmem]
        have := List.elem_iff.mpr this
        simp [List.contains] at hn
        simp_all
    · rfl


/-! ## Properties of `TempF` -/

theorem ParseFloat_digits (ds : Bytes) (hne : ds ≠ []) (hdig : ∀ d ∈ ds, isDigit d = true)
    (hsize : (decimalValue ds : ℚ) ≤ F64.maxFinite) :
    strconv_ParseFloat ds = (F64.round (decimalValue ds), none) := by
  obtain ⟨r, hr⟩ := F64.round_finite (decimalValue ds) (by positivity) hsize
  have h1 : ds.isEmpty = false := by
    cases ds with
    | nil => exact absurd rfl hne
    | cons a t => rfl
  have h2 : ds.all isDigit = true := List.all_eq_true.mpr hdig
  unfold strconv_ParseFloat
  rw [h1, h2, hr]
  rfl

/-- Once the non-empty lines are two and the first ends with `YES`, `TempF` is its part from
line 45 on, applied to the second line. -/
theorem TempF_two_lines (b l1 l2 : Bytes) (hlines : nonEmptyLines b = [l1, l2])
    (hyes : bytes_HasSuffix l1 (ascii "YES") = true) :
    TempF (Except.ok b) =
      match sliceFrom1 (re_data_FindSubmatch l2) with
      | Outcome.panic msg => Outcome.panic msg
      | Outcome.ret ms =>
        match ms with
        | [] => Outcome.ret (F64.fin 0, some "invalid data line")
        | m :: _ =>
          match strconv_ParseFloat m with
          | (_, some _) => Outcome.ret (F64.fin 0, some (errDataValue m))
          | (v, none) => Outcome.ret (toFahrenheit v, none) := by
  unfold TempF
  simp only [hlines, hyes]
  rfl

/-- Claim C1: a content whose non-empty lines are exactly two, the first ending with `YES` and
the second ending with `t=` and a non-empty run of digits that denotes an integer `v` no
larger than the largest finite `float64`, makes `TempF` return, without error, the value
`(v / 1000.0) * 9.0 / 5.0 + 32.0` computed in `float64` from the `float64` nearest to `v`.
For the two-line content ending in `t=23125` that value is `73.625`. -/
theorem C1_TempF_converts (b l1 l2 p ds : Bytes) (v : ℕ)
    (hlines : nonEmptyLines b = [l1, l2])
    (hyes : bytes_HasSuffix l1 (ascii "YES") = true)
    (hdata : l2 = p ++ ascii "t=" ++ ds)
    (hne : ds ≠ [])
    (hdig : ∀ d ∈ ds, isDigit d = true)
    (hv : decimalValue ds = v)
    (hsize : (v : ℚ) ≤ F64.maxFinite) :
    TempF (Except.ok b) =
      Outcome.ret
        (F64.add
          (F64.div (F64.mul (F64.div (F64.round v) (F64.fin 1000)) (F64.fin 9)) (F64.fin 5))
          (F64.fin 32), none) := by
  subst hv
  have hl2 : l2 ∈ nonEmptyLines b := by rw [hlines]; simp
  have hnl : nl ∉ p := by
    intro h
    apply nonEmptyLines_no_nl b l2 hl2
    rw [hdata]
    simp [h]
  rw [TempF_two_lines b l1 l2 hlines hyes, hdata, FindSubmatch_of_match p ds hdig hnl]
  have hs : sliceFrom1 [p ++ ascii "t=" ++ ds, ds] = Outcome.ret [ds] := rfl
  simp only [hs, ParseFloat_digits ds hne hdig hsize]
  rfl

theorem C1_TempF_converts_witness :
    nonEmptyLines
        (ascii "72 01 4b 46 7f ff 0e 10 57 : crc=57 YES\n72 01 4b 46 7f ff 0e 10 57 t=23125\n")
      = [ascii "72 01 4b 46 7f ff 0e 10 57 : crc=57 YES",
          ascii "72 01 4b 46 7f ff 0e 10 57 t=23125"] ∧
    TempF (Except.ok
        (ascii "72 01 4b 46 7f ff 0e 10 57 : crc=57 YES\n72 01 4b 46 7f ff 0e 10 57 t=23125\n"))
      = Outcome.ret (F64.fin 73.625, none) :=
  ⟨by decide,
    (C1_TempF_converts _ (ascii "72 01 4b 46 7f ff 0e 10 57 : crc=57 YES")
      (ascii "72 01 4b 46 7f ff 0e 10 57 t=23125") (ascii "72 01 4b 46 7f ff 0e 10 57 ")
      (ascii "23125") 23125 (by decide) (by decide) (by decide) (by decide) (by decide)
      (by decide) (by unfold F64.maxFinite; norm_num)).trans (by decide!)⟩


/-- Claim C2: a content with at least one non-empty line whose first non-empty line does not end
with `YES` makes `TempF` return the error `not ready to read`, whatever the other lines are
and however many there are: the readiness check comes before the line count. -/
theorem C2_TempF_not_ready (b l : Bytes) (rest : List Bytes)
    (hlines : nonEmptyLines b = l :: rest)
    (hno : bytes_HasSuffix l (ascii "YES") = false) :
    TempF (Except.ok b) = Outcome.ret (F64.fin 0, some "not ready to read") := by
  unfold TempF
  simp only [hlines, hno]
  rfl

theorem C2_TempF_not_ready_witness :
    nonEmptyLines (ascii "5d 01 4b 46 7f ff 03 10 e5 : crc=e5 NO\n5d 01 t=21812\nextra t=1\n")
      = ascii "5d 01 4b 46 7f ff 03 10 e5 : crc=e5 NO" :: [ascii "5d 01 t=21812", ascii "extra t=1"] ∧
    TempF (Except.ok
        (ascii "5d 01 4b 46 7f ff 03 10 e5 : crc=e5 NO\n5d 01 t=21812\nextra t=1\n"))
      = Outcome.ret (F64.fin 0, some "not ready to read") :=
  ⟨by decide,
    C2_TempF_not_ready _ (ascii "5d 01 4b 46 7f ff 03 10 e5 : crc=e5 NO")
      [ascii "5d 01 t=21812", ascii "extra t=1"] (by decide) (by decide)⟩

/-- Claim C3: a content whose first non-empty line ends with `YES` and whose number `n` of
non-empty lines is not 2 makes `TempF` return an error whose message states `n`:
`expected 2 data lines, got n`. -/
theorem C3_TempF_line_count (b l : Bytes) (rest : List Bytes) (n : ℕ)
    (hlines : nonEmptyLines b = l :: rest)
    (hyes : bytes_HasSuffix l (ascii "YES") = true)
    (hn : (nonEmptyLines b).length = n)
    (hne : n ≠ 2) :
    TempF (Except.ok b)
      = Outcome.ret (F64.fin 0, some ("expected 2 data lines, got " ++ toString n)) := by
  subst hn
  rw [hlines] at hne
  unfold TempF
  simp only [hlines, hyes]
  rw [if_neg (by decide), if_pos hne]
  rfl

theorem C3_TempF_line_count_witness :
    TempF (Except.ok (ascii "aa : crc=57 YES\nbb t=23125\ncc t=1\n"))
      = Outcome.ret (F64.fin 0, some "expected 2 data lines, got 3") ∧
    TempF (Except.ok (ascii "aa : crc=57 YES\n"))
      = Outcome.ret (F64.fin 0, some "expected 2 data lines, got 1") :=
  ⟨C3_TempF_line_count (ascii "aa : crc=57 YES\nbb t=23125\ncc t=1\n") (ascii "aa : crc=57 YES")
      [ascii "bb t=23125", ascii "cc t=1"] 3 (by decide) (by decide) (by decide) (by decide),
    C3_TempF_line_count (ascii "aa : crc=57 YES\n") (ascii "aa : crc=57 YES")
      [] 1 (by decide) (by decide) (by decide) (by decide)⟩

/-- Claim C4, what the code does where the claim expects an error value: on a content with
exactly two non-empty lines, the first ending with `YES` and the second outside the language
of `^.*t=([0-9]*)$`, `FindSubmatch` gives the nil slice, the expression `[1:]` on it panics,
and `TempF` returns nothing (the `invalid data line` branch is never reached). -/
theorem C4_TempF_no_match_panics (b l1 l2 : Bytes)
    (hlines : nonEmptyLines b = [l1, l2])
    (hyes : bytes_HasSuffix l1 (ascii "YES") = true)
    (hno : ¬ MatchesData l2) :
    TempF (Except.ok b) = Outcome.panic "runtime error: slice bounds out of range [1:0]" := by
  rw [TempF_two_lines b l1 l2 hlines hyes, (FindSubmatch_eq_nil_iff l2).mpr hno]
  rfl

theorem C4_TempF_no_match_panics_witness :
    ¬ MatchesData (ascii "23 01 4b 46 7f ff 0c 10 70") ∧
    TempF (Except.ok (ascii "23 01 4b 46 7f ff 0c 10 70 : crc=70 YES\n23 01 4b 46 7f ff 0c 10 70\n"))
      = Outcome.panic "runtime error: slice bounds out of range [1:0]" :=
  ⟨(FindSubmatch_eq_nil_iff _).mp (by decide),
    C4_TempF_no_match_panics _ (ascii "23 01 4b 46 7f ff 0c 10 70 : crc=70 YES")
      (ascii "23 01 4b 46 7f ff 0c 10 70") (by decide) (by decide)
      ((FindSubmatch_eq_nil_iff _).mp (by decide))⟩

/-- Claim C5 as stated fails: on the content `" YES\nt=-5000\n"` `TempF` does not return
`23.0`. -/
theorem C5_negative_counterexample :
    TempF (Except.ok (ascii " YES\nt=-5000\n")) ≠ Outcome.ret (F64.fin 23, none) := by
  decide

theorem not_MatchesData_minus (p ds : Bytes) (hdig : ∀ d ∈ ds, isDigit d = true) :
    ¬ MatchesData (p ++ ascii "t=-" ++ ds) := by
  rw [← FindSubmatch_eq_nil_iff]
  have e : p ++ ascii "t=-" ++ ds = (p ++ [116, 61]) ++ [45] ++ ds := by
    have : ascii "t=-" = [116, 61, 45] := by decide
    simp [this]
  have hb := beforeDigits_append (p ++ [116, 61]) ds 45 (by decide) hdig
  unfold re_data_FindSubmatch
  rw [e, hb]
  have h1 : bytes_HasSuffix (p ++ [116, 61] ++ [45]) (ascii "t=") = false := by
    rw [Bool.eq_false_iff]
    intro h
    unfold bytes_HasSuffix at h
    rw [List.isSuffixOf_iff_suffix, ascii_t_eq] at h
    obtain ⟨t, ht⟩ := h
    have := congrArg List.reverse ht
    simp at this
  rw [h1]
  rfl

/-- Claim C5, amended: a data line that ends with `t=-` followed by digits is outside the
language of `^.*t=([0-9]*)$` (the capture group takes digits only), and on a content with
exactly two non-empty lines, the first ending with `YES` and the second such a line, `TempF`
returns no temperature. -/
theorem C5_TempF_negative_rejected (b l1 l2 p ds : Bytes)
    (hlines : nonEmptyLines b = [l1, l2])
    (hyes : bytes_HasSuffix l1 (ascii "YES") = true)
    (hdata : l2 = p ++ ascii "t=-" ++ ds)
    (hdig : ∀ d ∈ ds, isDigit d = true) :
    ¬ MatchesData l2 ∧ ∀ v : F64, TempF (Except.ok b) ≠ Outcome.ret (v, none) := by
  have hno : ¬ MatchesData l2 := by rw [hdata]; exact not_MatchesData_minus p ds hdig
  refine ⟨hno, fun v => ?_⟩
  rw [TempF_two_lines b l1 l2 hlines hyes, (FindSubmatch_eq_nil_iff l2).mpr hno]
  simp [sliceFrom1]

theorem C5_TempF_negative_rejected_witness :
    ¬ MatchesData (ascii "t=-5000") ∧
    ∀ v : F64, TempF (Except.ok (ascii " YES\nt=-5000\n")) ≠ Outcome.ret (v, none) :=
  C5_TempF_negative_rejected (ascii " YES\nt=-5000\n") (ascii " YES") (ascii "t=-5000") []
    (ascii "5000") (by decide) (by decide) (by decide) (by decide)

/-- Claim C6, what the code does where the claim expects an error value: on a content without
any non-empty line (the empty content, or newlines only) the access `lines[0]` panics and
`TempF` returns nothing. -/
theorem C6_TempF_no_line_panics (b : Bytes) (hlines : nonEmptyLines b = []) :
    TempF (Except.ok b)
      = Outcome.panic "runtime error: index out of range [0] with length 0" := by
  unfold TempF
  simp only [hlines]

theorem C6_TempF_no_line_panics_witness :
    TempF (Except.ok (ascii ""))
      = Outcome.panic "runtime error: index out of range [0] with length 0" ∧
    TempF (Except.ok (ascii "\n\n"))
      = Outcome.panic "runtime error: index out of range [0] with length 0" :=
  ⟨C6_TempF_no_line_panics (ascii "") (by decide),
    C6_TempF_no_line_panics (ascii "\n\n") (by decide)⟩


/-! ## Properties of the loop of `WatchF` -/

theorem F64.ne_eq_true_iff (a b : F64) : F64.ne a b = true ↔ a ≠ b ∨ a = F64.nan ∨ b = F64.nan := by
  cases a <;> cases b <;> simp [F64.ne]

theorem WatchF_loop_cons_ret (last : F64) (r : F64 × Option GoError)
    (rs : List (Outcome (F64 × Option GoError))) :
    WatchF_loop last (Outcome.ret r :: rs) =
      ((WatchF_loop (WatchF_body last r).1 rs).1,
        (WatchF_body last r).2 ++ (WatchF_loop (WatchF_body last r).1 rs).2) := rfl

theorem WatchF_body_failure (last v : F64) (e : GoError) :
    WatchF_body last (v, some e) = (last, [Send.err e]) := rfl

theorem WatchF_body_success (last v : F64) :
    WatchF_body last (v, none) = if F64.ne last v then (v, [Send.temp v]) else (last, []) := rfl

theorem tempSeq_append (a b : List Send) : tempSeq (a ++ b) = tempSeq a ++ tempSeq b := by
  simp [tempSeq, List.filterMap_append]

theorem errSeq_append (a b : List Send) : errSeq (a ++ b) = errSeq a ++ errSeq b := by
  simp [errSeq, List.filterMap_append]

/-- Claim C7: on ticks that all succeed, the values sent on `tempchan` are those the
specification describes: a reading is sent exactly when it differs from `last`, which then
becomes it (from any `last`, in particular from the initial zero). The readings
`5, 5, 6, 6, 5` give the sends `5, 6, 5`. -/
theorem C7_WatchF_changes :
    (∀ (last : F64) (vs : List F64),
      tempSeq (WatchF_loop last (readings vs)).2 = changesSpec last vs) ∧
    tempSeq (WatchF_loop (F64.fin 0)
        (readings [F64.fin 5, F64.fin 5, F64.fin 6, F64.fin 6, F64.fin 5])).2
      = [F64.fin 5, F64.fin 6, F64.fin 5] := by
  refine ⟨?_, by decide!⟩
  intro last vs
  induction vs generalizing last with
  | nil => rfl
  | cons v vs ih =>
    show tempSeq (WatchF_loop last (Outcome.ret (v, none) :: readings vs)).2 = _
    rw [WatchF_loop_cons_ret, WatchF_body_success, changesSpec]
    by_cases h : F64.ne last v = true
    · simp only [h, if_true, tempSeq_append, ih]
      rfl
    · simp only [h, if_false, tempSeq_append, ih]
      rfl

theorem WatchF_loop_invariant (last : F64) (ticks : List (Outcome (F64 × Option GoError))) :
    List.Chain (fun a b => F64.ne a b = true) last (tempSeq (WatchF_loop last ticks).2) ∧
    (WatchF_loop last ticks).1 = ((tempSeq (WatchF_loop last ticks).2).getLast?).getD last := by
  induction ticks generalizing last with
  | nil => exact ⟨List.Chain.nil, rfl⟩
  | cons t ts ih =>
    cases t with
    | panic msg => exact ⟨List.Chain.nil, rfl⟩
    | ret r =>
      obtain ⟨v, e⟩ := r
      rw [WatchF_loop_cons_ret]
      cases e with
      | some e =>
        rw [WatchF_body_failure]
        simp only [tempSeq_append]
        exact ih last
      | none =>
        rw [WatchF_body_success]
        by_cases h : F64.ne last v = true
        · simp only [h, if_true, tempSeq_append]
          obtain ⟨h1, h2⟩ := ih v
          refine ⟨List.Chain.cons h h1, ?_⟩
          rw [h2]
          show _ = ((v :: tempSeq (WatchF_loop v ts).2).getLast?).getD last
          cases hs : tempSeq (WatchF_loop v ts).2 with
          | nil => rfl
          | cons a l => simp [List.getLast?_cons_cons, List.getLast?_eq_getLast, Option.getD]
        · simp only [h, if_false, tempSeq_append]
          exact ih last

/-- Claim C8: whatever the outcomes of the ticks, any two consecutive values sent on `tempchan`
differ (by the `!=` of the code, which on values other than NaN is plain difference), the
first one differs from the initial zero, and `last` is the value sent most recently, or zero
when nothing has been sent. This holds after every tick, the run up to a tick being the run
on a shorter list. -/
theorem C8_WatchF_consecutive_differ (ticks : List (Outcome (F64 × Option GoError))) :
    List.Chain' (fun a b => a ≠ b ∨ a = F64.nan ∨ b = F64.nan)
      (tempSeq (WatchF_loop (F64.fin 0) ticks).2) ∧
    List.Chain' (fun a b => F64.ne a b = true)
      (F64.fin 0 :: tempSeq (WatchF_loop (F64.fin 0) ticks).2) ∧
    (WatchF_loop (F64.fin 0) ticks).1
      = ((tempSeq (WatchF_loop (F64.fin 0) ticks).2).getLast?).getD (F64.fin 0) := by
  obtain ⟨h1, h2⟩ := WatchF_loop_invariant (F64.fin 0) ticks
  refine ⟨?_, h1, h2⟩
  have h3 : List.Chain' (fun a b => F64.ne a b = true)
      (tempSeq (WatchF_loop (F64.fin 0) ticks).2) := (List.Chain'.tail (l := _ :: _) h1)
  exact h3.imp (fun a b h => (F64.ne_eq_true_iff a b).mp h)

theorem WatchF_loop_filter (last : F64) (rs : List (F64 × Option GoError)) :
    (WatchF_loop last (returned (rs.filter (fun r => !isFailure r)))).1
      = (WatchF_loop last (returned rs)).1 ∧
    tempSeq (WatchF_loop last (returned (rs.filter (fun r => !isFailure r)))).2
      = tempSeq (WatchF_loop last (returned rs)).2 := by
  induction rs generalizing last with
  | nil => exact ⟨rfl, rfl⟩
  | cons r rs ih =>
    obtain ⟨v, e⟩ := r
    cases e with
    | some e =>
      rw [List.filter_cons_of_neg (by simp [isFailure])]
      show _ = (WatchF_loop last (Outcome.ret (v, some e) :: returned rs)).1 ∧
        _ = tempSeq (WatchF_loop last (Outcome.ret (v, some e) :: returned rs)).2
      rw [WatchF_loop_cons_ret, WatchF_body_failure]
      simp only [tempSeq_append]
      exact ih last
    | none =>
      rw [List.filter_cons_of_pos (by simp [isFailure])]
      show (WatchF_loop last (Outcome.ret (v, none) :: returned _)).1
          = (WatchF_loop last (Outcome.ret (v, none) :: returned rs)).1 ∧
        tempSeq (WatchF_loop last (Outcome.ret (v, none) :: returned _)).2
          = tempSeq (WatchF_loop last (Outcome.ret (v, none) :: returned rs)).2
      rw [WatchF_loop_cons_ret, WatchF_loop_cons_ret]
      simp only [tempSeq_append]
      obtain ⟨h1, h2⟩ := ih (WatchF_body last (v, none)).1
      exact ⟨h1, by rw [h2]⟩

/-- Claim C9: a tick at which `TempF` returned an error leaves `last` as it was and sends
nothing on `tempchan` (its one send goes to `errchan`); and for every list of returned
results the values sent on `tempchan`, and the final `last`, are those of the same list
with the failed ticks removed. -/
theorem C9_WatchF_failure_frame :
    (∀ (last v : F64) (e : GoError),
      (WatchF_body last (v, some e)).1 = last ∧ tempSeq (WatchF_body last (v, some e)).2 = []) ∧
    (∀ rs : List (F64 × Option GoError),
      tempSeq (WatchF_loop (F64.fin 0) (returned rs)).2
        = tempSeq (WatchF_loop (F64.fin 0) (returned (rs.filter (fun r => !isFailure r)))).2 ∧
      (WatchF_loop (F64.fin 0) (returned rs)).1
        = (WatchF_loop (F64.fin 0) (returned (rs.filter (fun r => !isFailure r)))).1) :=
  ⟨fun _ _ _ => ⟨rfl, rfl⟩,
    fun rs => ⟨(WatchF_loop_filter (F64.fin 0) rs).2.symm, (WatchF_loop_filter (F64.fin 0) rs).1.symm⟩⟩

theorem WatchF_loop_errSeq (last : F64) (rs : List (F64 × Option GoError)) :
    errSeq (WatchF_loop last (returned rs)).2 = rs.filterMap (fun r => r.2) := by
  induction rs generalizing last with
  | nil => rfl
  | cons r rs ih =>
    obtain ⟨v, e⟩ := r
    show errSeq (WatchF_loop last (Outcome.ret (v, e) :: returned rs)).2 = _
    rw [WatchF_loop_cons_ret, errSeq_append, ih]
    cases e with
    | some e => rfl
    | none =>
      rw [WatchF_body_success]
      by_cases h : F64.ne last v = true
      · simp only [h, if_true]; rfl
      · simp only [h, if_false]; rfl

/-- Claim C10: for every list of results returned by `TempF` at the successive ticks, the errors
sent on `errchan` are exactly the errors among those results, in tick order and each as many
times as it occurs; and a tick that failed is followed by the processing of the remaining
ticks, from the same `last`. -/
theorem C10_WatchF_errors_surfaced :
    (∀ rs : List (F64 × Option GoError),
      errSeq (WatchF_loop (F64.fin 0) (returned rs)).2 = rs.filterMap (fun r => r.2)) ∧
    (∀ (last v : F64) (e : GoError) (rs : List (F64 × Option GoError)),
      WatchF_loop last (returned ((v, some e) :: rs))
        = ((WatchF_loop last (returned rs)).1,
            Send.err e :: (WatchF_loop last (returned rs)).2)) :=
  ⟨fun rs => WatchF_loop_errSeq (F64.fin 0) rs, fun _ _ _ _ => rfl⟩

/-! ## Bounds on the rounding and on the result of `TempF` -/

namespace F64

theorem lt_floorLog2 (q : ℚ) (hq : 0 < q) : q < (2 : ℚ) ^ (floorLog2 q + 1) := by
  unfold floorLog2
  simp only
  split_ifs with h
  · have hnum : 0 < q.num := Rat.num_pos.mpr hq
    have hnat : 0 < q.num.natAbs := Int.natAbs_pos.mpr hnum.ne'
    obtain ⟨_, _, hahi⟩ := bitLen_bounds _ hnat
    obtain ⟨hb1, hblo, _⟩ := bitLen_bounds _ q.den_pos
    generalize bitLen q.num.natAbs = a at hahi
    generalize bitLen q.den = b at hb1 hblo
    obtain ⟨j, rfl⟩ : ∃ j, b = j + 1 := ⟨b - 1, by omega⟩
    simp only [Nat.add_sub_cancel] at hblo
    have e1 : (a : ℤ) - ((j + 1 : ℕ) : ℤ) + 1 = (a : ℤ) - (j : ℤ) := by push_cast; ring
    rw [e1, zpow_sub₀ (by norm_num : (2 : ℚ) ≠ 0), zpow_natCast, zpow_natCast]
    have hq' : q = (q.num.natAbs : ℚ) / (q.den : ℚ) := by
      have hnn : ((q.num.natAbs : ℕ) : ℚ) = (q.num : ℚ) := by
        rw [← Int.cast_natCast, Int.natAbs_of_nonneg hnum.le]
      rw [hnn]
      exact (Rat.num_div_den q).symm
    rw [hq']
    have hden : (0 : ℚ) < q.den := by exact_mod_cast q.den_pos
    have h1 : (q.num.natAbs : ℚ) < (2 : ℚ) ^ a := by exact_mod_cast hahi
    have h2 : (2 : ℚ) ^ j ≤ (q.den : ℚ) := by exact_mod_cast hblo
    have h2j : (0 : ℚ) < 2 ^ j := by positivity
    rw [div_lt_div_iff₀ hden h2j]
    calc (q.num.natAbs : ℚ) * 2 ^ j ≤ (q.num.natAbs : ℚ) * q.den :=
          mul_le_mul_of_nonneg_left h2 (by positivity)
      _ < 2 ^ a * q.den := mul_lt_mul_of_pos_right h1 hden
  · have e1 : (bitLen q.num.natAbs : ℤ) - (bitLen q.den : ℤ) - 1 + 1
        = (bitLen q.num.natAbs : ℤ) - (bitLen q.den : ℤ) := by ring
    rw [e1]
    exact lt_of_not_le h

theorem floor_le_roundHalfEven (x : ℚ) : ⌊x⌋ ≤ roundHalfEven x := by
  unfold roundHalfEven
  simp only
  split_ifs <;> omega

theorem roundHalfEven_le_floor_succ (x : ℚ) : roundHalfEven x ≤ ⌊x⌋ + 1 := by
  unfold roundHalfEven
  simp only
  split_ifs <;> omega

/-- The rounding of a positive `q` before the range check. -/
theorem round_of_pos (q : ℚ) (hq : 0 < q) :
    round q =
      if (roundHalfEven (q / 2 ^ (max (floorLog2 q - 52) (-1074))) : ℚ)
          * 2 ^ (max (floorLog2 q - 52) (-1074)) < 2 ^ 1024
      then fin ((roundHalfEven (q / 2 ^ (max (floorLog2 q - 52) (-1074))) : ℚ)
          * 2 ^ (max (floorLog2 q - 52) (-1074)))
      else inf false := by
  unfold round roundMag
  simp only [hq.ne', if_false, abs_of_pos hq, not_lt.mpr hq.le]
  split_ifs <;> simp

theorem round_fin_bounds (q r : ℚ) (h0 : 0 ≤ q) (h : round q = fin r) :
    0 ≤ r ∧ r < 2 ^ 1024 ∧ r ≤ 2 * q + 1 := by
  by_cases hq : q = 0
  · subst hq
    have : round 0 = fin 0 := by simp [round]
    rw [this] at h
    injection h with h
    subst h
    exact ⟨le_refl _, by positivity, by norm_num⟩
  · have hpos : 0 < q := lt_of_le_of_ne h0 (Ne.symm hq)
    rw [round_of_pos q hpos] at h
    generalize hp : max (floorLog2 q - 52) (-1074) = p at h
    have h2p : (0 : ℚ) < 2 ^ p := by positivity
    split_ifs at h with hlt
    · injection h with h
      subst h
      have hx : 0 ≤ q / 2 ^ p := by positivity
      have hfl : (0 : ℤ) ≤ ⌊q / 2 ^ p⌋ := Int.floor_nonneg.mpr hx
      have hr0 : (0 : ℤ) ≤ roundHalfEven (q / 2 ^ p) := hfl.trans (floor_le_roundHalfEven _)
      have hr0' : (0 : ℚ) ≤ (roundHalfEven (q / 2 ^ p) : ℚ) := by exact_mod_cast hr0
      refine ⟨mul_nonneg hr0' h2p.le, hlt, ?_⟩
      have hup : (roundHalfEven (q / 2 ^ p) : ℚ) ≤ q / 2 ^ p + 1 := by
        have h1 : (roundHalfEven (q / 2 ^ p) : ℚ) ≤ ((⌊q / 2 ^ p⌋ + 1 : ℤ) : ℚ) := by
          exact_mod_cast roundHalfEven_le_floor_succ _
        have h2 : ((⌊q / 2 ^ p⌋ : ℤ) : ℚ) ≤ q / 2 ^ p := Int.floor_le _
        push_cast at h1
        linarith
      have hpq : (2 : ℚ) ^ p ≤ q + 1 := by
        rcases max_cases (floorLog2 q - 52) (-1074) with ⟨he, _⟩ | ⟨he, _⟩
        · rw [he] at hp
          have h1 : (2 : ℚ) ^ p ≤ 2 ^ floorLog2 q :=
            zpow_le_zpow_right₀ (by norm_num) (by omega)
          have h2 := floorLog2_le q hpos
          linarith
        · rw [he] at hp
          have h1 : (2 : ℚ) ^ p ≤ 2 ^ (0 : ℤ) :=
            zpow_le_zpow_right₀ (by norm_num) (by omega)
          simp at h1
          linarith
      calc (roundHalfEven (q / 2 ^ p) : ℚ) * 2 ^ p ≤ (q / 2 ^ p + 1) * 2 ^ p :=
            mul_le_mul_of_nonneg_right hup h2p.le
        _ = q + 2 ^ p := by field_simp
        _ ≤ 2 * q + 1 := by linarith

theorem round_ge_32 (q r : ℚ) (h32 : 32 ≤ q) (h : round q = fin r) : 32 ≤ r := by
  have hpos : 0 < q := by linarith
  rw [round_of_pos q hpos] at h
  have he5 : 5 ≤ floorLog2 q := by
    by_contra hc
    have h1 : (2 : ℚ) ^ (floorLog2 q + 1) ≤ 2 ^ (5 : ℤ) :=
      zpow_le_zpow_right₀ (by norm_num) (by omega)
    have h2 := lt_floorLog2 q hpos
    norm_num at h1
    linarith
  have hlog := floorLog2_le q hpos
  generalize floorLog2 q = e at h he5 hlog
  have hp : max (e - 52) (-1074) = e - 52 := max_eq_left (by omega)
  rw [hp] at h
  split_ifs at h with hlt
  · injection h with h
    subst h
    have h2p : (0 : ℚ) < 2 ^ (e - 52) := by positivity
    have h4 : (2 : ℚ) ^ (52 : ℕ) * 2 ^ (e - 52) = 2 ^ e := by
      rw [← zpow_natCast, ← zpow_add₀ (by norm_num : (2 : ℚ) ≠ 0)]
      congr 1
      push_cast
      ring
    have hcast : (((2 : ℤ) ^ 52 : ℤ) : ℚ) = (2 : ℚ) ^ (52 : ℕ) := by norm_num
    have hx : (((2 : ℤ) ^ 52 : ℤ) : ℚ) ≤ q / 2 ^ (e - 52) := by
      rw [le_div_iff₀ h2p, hcast, h4]
      exact hlog
    have hfl : (2 : ℤ) ^ 52 ≤ ⌊q / 2 ^ (e - 52)⌋ := Int.le_floor.mpr hx
    have hr : (2 : ℤ) ^ 52 ≤ roundHalfEven (q / 2 ^ (e - 52)) :=
      hfl.trans (floor_le_roundHalfEven _)
    have hr' : ((2 : ℚ) ^ (52 : ℕ)) ≤ (roundHalfEven (q / 2 ^ (e - 52)) : ℚ) := by
      rw [← hcast]
      exact_mod_cast hr
    have h3 : (2 : ℚ) ^ (52 : ℕ) * 2 ^ (e - 52)
        ≤ (roundHalfEven (q / 2 ^ (e - 52)) : ℚ) * 2 ^ (e - 52) :=
      mul_le_mul_of_nonneg_right hr' h2p.le
    have h5 : (2 : ℚ) ^ (5 : ℤ) ≤ 2 ^ e := zpow_le_zpow_right₀ (by norm_num) he5
    norm_num at h5
    linarith

end F64

namespace F64

theorem round_nonneg (q : ℚ) (h0 : 0 ≤ q) (hmax : q ≤ maxFinite) :
    ∃ r, round q = fin r ∧ 0 ≤ r ∧ r ≤ 2 * q + 1 := by
  obtain ⟨r, hr⟩ := round_finite q h0 hmax
  obtain ⟨h1, _, h3⟩ := round_fin_bounds q r h0 hr
  exact ⟨r, hr, h1, h3⟩

end F64

theorem toFahrenheit_ge_32 (q0 : ℚ) (h0 : 0 ≤ q0) (hlt : q0 < 2 ^ 1024) :
    ∃ r, toFahrenheit (F64.fin q0) = F64.fin r ∧ 32 ≤ r := by
  have hM : (2 : ℚ) ^ 1024 / 2 ≤ F64.maxFinite := by unfold F64.maxFinite; norm_num
  have hB : (1000 : ℚ) ≤ 2 ^ 1024 := by norm_num
  obtain ⟨B, hBdef⟩ : ∃ B : ℚ, B = 2 ^ 1024 := ⟨_, rfl⟩
  rw [← hBdef] at hM hB hlt
  clear hBdef
  obtain ⟨c1, hc1, hc1a, hc1b⟩ :=
    F64.round_nonneg (q0 / 1000) (div_nonneg h0 (by norm_num)) (by linarith)
  obtain ⟨c2, hc2, hc2a, hc2b⟩ :=
    F64.round_nonneg (c1 * 9) (mul_nonneg hc1a (by norm_num)) (by linarith)
  obtain ⟨c3, hc3, hc3a, hc3b⟩ :=
    F64.round_nonneg (c2 / 5) (div_nonneg hc2a (by norm_num)) (by linarith)
  obtain ⟨c4, hc4, _, _⟩ :=
    F64.round_nonneg (c3 + 32) (add_nonneg hc3a (by norm_num)) (by linarith)
  have h32 := F64.round_ge_32 (c3 + 32) c4 (by linarith) hc4
  refine ⟨c4, ?_, h32⟩
  unfold toFahrenheit
  simp only [F64.div, F64.mul, F64.add]
  norm_num
  rw [hc1]
  simp only [F64.div, F64.mul, F64.add]
  rw [hc2]
  simp only [F64.div, F64.mul, F64.add]
  norm_num
  rw [hc3]
  simp only [F64.div, F64.mul, F64.add]
  rw [hc4]

theorem ParseFloat_none (m : Bytes) (v : F64) (h : strconv_ParseFloat m = (v, none)) :
    ∃ q0, v = F64.fin q0 ∧ F64.round (decimalValue m) = F64.fin q0 := by
  unfold strconv_ParseFloat at h
  split_ifs at h with hc
  · simp at h
  · split at h
    · rename_i q hq
      simp only [Prod.mk.injEq, and_true] at h
      exact ⟨q, h.symm, hq⟩
    · simp at h

theorem TempF_success (file : Except GoError Bytes) (v : F64)
    (h : TempF file = Outcome.ret (v, none)) :
    ∃ m v0, strconv_ParseFloat m = (v0, none) ∧ v = toFahrenheit v0 := by
  unfold TempF at h
  split at h
  · simp at h
  · simp only at h
    split at h
    · simp at h
    · split_ifs at h
      · simp at h
      · simp at h
      · split at h
        · simp at h
        · split at h
          · simp at h
          · split at h
            · simp at h
            · split at h
              · simp at h
              · rename_i hpf
                simp only [Outcome.ret.injEq, Prod.mk.injEq, and_true] at h
                exact ⟨_, _, hpf, h.symm⟩

theorem TempF_success_ge_32 (file : Except GoError Bytes) (v : F64)
    (h : TempF file = Outcome.ret (v, none)) : ∃ r, v = F64.fin r ∧ 32 ≤ r := by
  obtain ⟨m, v0, hpf, hv⟩ := TempF_success file v h
  obtain ⟨q0, hq0, hround⟩ := ParseFloat_none m v0 hpf
  obtain ⟨h1, h2, _⟩ := F64.round_fin_bounds (decimalValue m) q0 (by positivity) hround
  obtain ⟨r, hr, h32⟩ := toFahrenheit_ge_32 q0 h1 h2
  exact ⟨r, by rw [hv, hq0, hr], h32⟩


/-! ## Further properties of `TempF`, `WatchF` and `TempSensors` -/

/-- Claim C11: one iteration of the loop sends at most one value. A tick at which `TempF`
returned an error sends that error on `errchan` and nothing else; a tick at which it succeeded
sends the value on `tempchan` or sends nothing; so no tick sends on both channels. -/
theorem C11_WatchF_one_send_per_tick :
    (∀ (last v : F64) (e : GoError), (WatchF_body last (v, some e)).2 = [Send.err e]) ∧
    (∀ last v : F64, (WatchF_body last (v, none)).2 = [Send.temp v] ∨
      (WatchF_body last (v, none)).2 = []) ∧
    (∀ (last : F64) (r : F64 × Option GoError),
      (WatchF_body last r).2.length ≤ 1 ∧
      (tempSeq (WatchF_body last r).2).length + (errSeq (WatchF_body last r).2).length ≤ 1 ∧
      (tempSeq (WatchF_body last r).2 = [] ∨ errSeq (WatchF_body last r).2 = [])) := by
  refine ⟨fun _ _ _ => rfl, ?_, ?_⟩
  · intro last v
    rw [WatchF_body_success]
    by_cases h : F64.ne last v = true
    · left; simp [h]
    · right; simp [h]
  · rintro last ⟨v, e⟩
    cases e with
    | some e => rw [WatchF_body_failure]; simp [tempSeq, errSeq]
    | none =>
      rw [WatchF_body_success]
      by_cases h : F64.ne last v = true
      · simp [h, tempSeq, errSeq]
      · simp [h, tempSeq, errSeq]

theorem WatchF_loop_failure_then_success (x v : F64) (e : GoError)
    (hv : F64.ne (F64.fin 0) v = true) :
    WatchF_loop (F64.fin 0) [Outcome.ret (x, some e), Outcome.ret (v, none)]
      = (v, [Send.err e, Send.temp v]) := by
  rw [WatchF_loop_cons_ret, WatchF_body_failure, WatchF_loop_cons_ret, WatchF_body_success]
  simp only [hv, if_true]
  rfl

/-- Claim C12: for every failure `e` and every successful reading `v` that `TempF` returns, a
fresh `WatchF` loop whose first tick gets the failure and whose second tick gets the success
sends `e` exactly once on `errchan` and `v` exactly once on `tempchan`, the error first, and
`last` ends as `v`. The readings are those of `TempF`, the reader the loop calls: its successes
are at least `32.0`, so `v` differs from the initial `last`. -/
theorem C12_WatchF_failure_then_success (f1 f2 : Except GoError Bytes) (x v : F64)
    (e : GoError)
    (h1 : TempF f1 = Outcome.ret (x, some e))
    (h2 : TempF f2 = Outcome.ret (v, none)) :
    errSeq (WatchF [f1, f2]).2 = [e] ∧
    tempSeq (WatchF [f1, f2]).2 = [v] ∧
    WatchF [f1, f2] = (v, [Send.err e, Send.temp v]) ∧
    errSeq (WatchF_loop (F64.fin 0) (returned [(x, some e), (v, none)])).2 = [e] ∧
    tempSeq (WatchF_loop (F64.fin 0) (returned [(x, some e), (v, none)])).2 = [v] := by
  obtain ⟨r, hr, h32⟩ := TempF_success_ge_32 f2 v h2
  have hne : F64.ne (F64.fin 0) v = true := by
    rw [F64.ne_eq_true_iff]
    left
    rw [hr]
    intro hc
    injection hc with hc
    rw [← hc] at h32
    norm_num at h32
  have hloop := WatchF_loop_failure_then_success x v e hne
  have hw : WatchF [f1, f2] = (v, [Send.err e, Send.temp v]) := by
    show WatchF_loop (F64.fin 0) [TempF f1, TempF f2] = _
    rw [h1, h2, hloop]
  have hret : WatchF_loop (F64.fin 0) (returned [(x, some e), (v, none)])
      = (v, [Send.err e, Send.temp v]) := hloop
  rw [hw, hret]
  exact ⟨rfl, rfl, rfl, rfl, rfl⟩

theorem C12_WatchF_failure_then_success_witness :
    errSeq (WatchF [Except.error "open /sys/bus/w1/devices/28-01/w1_slave: no such file",
      Except.ok
        (ascii "72 01 4b 46 7f ff 0e 10 57 : crc=57 YES\n72 01 4b 46 7f ff 0e 10 57 t=23125\n")]).2
      = ["open /sys/bus/w1/devices/28-01/w1_slave: no such file"] ∧
    tempSeq (WatchF [Except.error "open /sys/bus/w1/devices/28-01/w1_slave: no such file",
      Except.ok
        (ascii "72 01 4b 46 7f ff 0e 10 57 : crc=57 YES\n72 01 4b 46 7f ff 0e 10 57 t=23125\n")]).2
      = [F64.fin 73.625] :=
  ⟨(C12_WatchF_failure_then_success
      (Except.error "open /sys/bus/w1/devices/28-01/w1_slave: no such file")
      (Except.ok
        (ascii "72 01 4b 46 7f ff 0e 10 57 : crc=57 YES\n72 01 4b 46 7f ff 0e 10 57 t=23125\n"))
      (F64.fin 0) (F64.fin 73.625) "open /sys/bus/w1/devices/28-01/w1_slave: no such file"
      rfl (by decide!)).1,
    (C12_WatchF_failure_then_success
      (Except.error "open /sys/bus/w1/devices/28-01/w1_slave: no such file")
      (Except.ok
        (ascii "72 01 4b 46 7f ff 0e 10 57 : crc=57 YES\n72 01 4b 46 7f ff 0e 10 57 t=23125\n"))
      (F64.fin 0) (F64.fin 73.625) "open /sys/bus/w1/devices/28-01/w1_slave: no such file"
      rfl (by decide!)).2.1⟩

/-- Claim C13 as stated fails: on that content `TempF` does not return the line-count error
with the count 3. -/
theorem C13_count_counterexample :
    TempF (Except.ok (ascii "u\nt=23125YES\n23 01 4b 46 7f ff 0c 10 70 t=23125\n"))
      ≠ Outcome.ret (F64.fin 0, some "expected 2 data lines, got 3") := by
  decide

/-- Claim C13, amended: the content splits into 3 non-empty lines, the first of which, `u`,
does not end with `YES`, and `TempF` returns the error `not ready to read`. -/
theorem C13_TempF_three_lines_not_ready :
    nonEmptyLines (ascii "u\nt=23125YES\n23 01 4b 46 7f ff 0c 10 70 t=23125\n")
      = [ascii "u", ascii "t=23125YES", ascii "23 01 4b 46 7f ff 0c 10 70 t=23125"] ∧
    (nonEmptyLines (ascii "u\nt=23125YES\n23 01 4b 46 7f ff 0c 10 70 t=23125\n")).length = 3 ∧
    bytes_HasSuffix (ascii "u") (ascii "YES") = false ∧
    TempF (Except.ok (ascii "u\nt=23125YES\n23 01 4b 46 7f ff 0c 10 70 t=23125\n"))
      = Outcome.ret (F64.fin 0, some "not ready to read") := by
  decide


theorem bytes_Split_cons (sep c : UInt8) (cs : Bytes) :
    bytes_Split sep (c :: cs) =
      if c = sep then [] :: bytes_Split sep cs
      else
        match bytes_Split sep cs with
        | [] => [[c]]
        | l :: ls => (c :: l) :: ls := rfl

theorem bytes_Split_append_sep (sep : UInt8) (a b : Bytes) :
    bytes_Split sep (a ++ sep :: b) = bytes_Split sep a ++ bytes_Split sep b := by
  induction a with
  | nil =>
    rw [List.nil_append, bytes_Split_cons, if_pos rfl]
    rfl
  | cons c cs ih =>
    rw [List.cons_append, bytes_Split_cons sep c (cs ++ sep :: b), bytes_Split_cons sep c cs, ih]
    split_ifs with hc
    · rfl
    · have hne := bytes_Split_ne_nil sep cs
      cases hs : bytes_Split sep cs with
      | nil => exact absurd hs hne
      | cons l ls => rfl

theorem nonEmptyLines_append_nl (a b : Bytes) :
    nonEmptyLines (a ++ nl :: b) = nonEmptyLines a ++ nonEmptyLines b := by
  unfold nonEmptyLines
  rw [bytes_Split_append_sep, List.filter_append]

theorem nonEmptyLines_nil : nonEmptyLines [] = [] := by decide

theorem TempF_congr (c1 c2 : Bytes) (h : nonEmptyLines c1 = nonEmptyLines c2) :
    TempF (Except.ok c1) = TempF (Except.ok c2) := by
  unfold TempF
  simp only [h]

/-- Claim C14: two contents with the same non-empty lines get the same result from `TempF`
(the same temperature, the same error with the same reported count, or the same panic). In
particular two newlines appended to a content, a newline put before it, and a newline doubled
between two parts of it change nothing. -/
theorem C14_TempF_blank_lines :
    (∀ c1 c2 : Bytes, nonEmptyLines c1 = nonEmptyLines c2 →
      TempF (Except.ok c1) = TempF (Except.ok c2)) ∧
    (∀ c : Bytes, TempF (Except.ok (c ++ ascii "\n\n")) = TempF (Except.ok c)) ∧
    (∀ c : Bytes, TempF (Except.ok (ascii "\n" ++ c)) = TempF (Except.ok c)) ∧
    (∀ a b : Bytes, TempF (Except.ok (a ++ ascii "\n\n" ++ b))
      = TempF (Except.ok (a ++ ascii "\n" ++ b))) := by
  have e1 : ascii "\n" = [nl] := by decide
  have e2 : ascii "\n\n" = [nl, nl] := by decide
  refine ⟨TempF_congr, fun c => TempF_congr _ _ ?_, fun c => TempF_congr _ _ ?_,
    fun a b => TempF_congr _ _ ?_⟩
  · rw [e2, nonEmptyLines_append_nl]
    have : nonEmptyLines [nl] = [] := by decide
    rw [this, List.append_nil]
  · rw [e1]
    have := nonEmptyLines_append_nl [] c
    rw [List.nil_append] at this
    rw [List.singleton_append, this, nonEmptyLines_nil, List.nil_append]
  · rw [e1, e2]
    have h1 : a ++ [nl, nl] ++ b = a ++ nl :: (nl :: b) := by simp
    have h2 : a ++ [nl] ++ b = a ++ nl :: b := by simp
    have h3 := nonEmptyLines_append_nl [] b
    rw [List.nil_append, nonEmptyLines_nil, List.nil_append] at h3
    rw [h1, h2, nonEmptyLines_append_nl, nonEmptyLines_append_nl, h3]

theorem C14_TempF_blank_lines_witness :
    nonEmptyLines (ascii "\naa YES\n\n\nbb t=23125\n\n")
      = nonEmptyLines (ascii "aa YES\nbb t=23125") ∧
    TempF (Except.ok (ascii "\naa YES\n\n\nbb t=23125\n\n"))
      = TempF (Except.ok (ascii "aa YES\nbb t=23125")) :=
  ⟨by decide, C14_TempF_blank_lines.1 _ _ (by decide)⟩

/-- Claim C15 as stated fails: on a devices directory that exists and is empty `TempSensors`
returns no error. -/
theorem C15_empty_directory_counterexample :
    ¬ ∃ err, (TempSensors (Except.ok []) (fun _ => false)).2 = some err := by
  rintro ⟨err, h⟩
  have h0 : (TempSensors (Except.ok []) (fun _ => false)).2 = none := rfl
  rw [h0] at h
  exact Option.noConfusion h

/-- Claim C15, amended: `TempSensors` returns the error of the listing, and no sensor, when
the directory cannot be listed; when the directory exists and is empty it returns the empty
sensor list and no error. -/
theorem C15_TempSensors_absent_or_empty :
    (∀ (err : GoError) (statNotExist : String → Bool),
      TempSensors (Except.error err) statNotExist = ([], some err)) ∧
    (∀ statNotExist : String → Bool, TempSensors (Except.ok []) statNotExist = ([], none)) :=
  ⟨fun _ _ => rfl, fun _ => rfl⟩

theorem F64.ne_zero_zero : F64.ne (F64.fin 0) (F64.fin 0) = false := by
  simp [F64.ne]

theorem WatchF_loop_suppressed (rs : List (F64 × Option GoError))
    (h : ∀ r ∈ rs, isFailure r = true ∨ r = (F64.fin 0, none)) :
    (WatchF_loop (F64.fin 0) (returned rs)).1 = F64.fin 0 ∧
    tempSeq (WatchF_loop (F64.fin 0) (returned rs)).2 = [] := by
  induction rs with
  | nil => exact ⟨rfl, rfl⟩
  | cons r rs ih =>
    obtain ⟨ih1, ih2⟩ := ih (fun r hr => h r (List.mem_cons_of_mem _ hr))
    show (WatchF_loop (F64.fin 0) (Outcome.ret r :: returned rs)).1 = _ ∧
      tempSeq (WatchF_loop (F64.fin 0) (Outcome.ret r :: returned rs)).2 = _
    rw [WatchF_loop_cons_ret]
    have hb : WatchF_body (F64.fin 0) r = (F64.fin 0, (WatchF_body (F64.fin 0) r).2) ∧
        tempSeq (WatchF_body (F64.fin 0) r).2 = [] := by
      rcases h r (List.mem_cons_self _ _) with hf | hz
      · obtain ⟨v, e⟩ := r
        cases e with
        | none => simp [isFailure] at hf
        | some e => exact ⟨rfl, rfl⟩
      · subst hz
        rw [WatchF_body_success, F64.ne_zero_zero]
        exact ⟨rfl, rfl⟩
    obtain ⟨hb1, hb2⟩ := hb
    rw [hb1]
    simp only [tempSeq_append, hb2, List.nil_append]
    exact ⟨ih1, ih2⟩

/-- Claim C16: `last` starts at `0.0`, so a fresh loop whose ticks are only failures and
successful readings of `0.0` sends nothing on `tempchan` (and `last` stays `0.0`); and whenever
`0.0` is sent on `tempchan`, a value other than `0.0` was sent before it. -/
theorem C16_WatchF_zero_suppressed :
    (∀ rs : List (F64 × Option GoError),
      (∀ r ∈ rs, isFailure r = true ∨ r = (F64.fin 0, none)) →
      (WatchF_loop (F64.fin 0) (returned rs)).1 = F64.fin 0 ∧
      tempSeq (WatchF_loop (F64.fin 0) (returned rs)).2 = []) ∧
    (∀ (ticks : List (Outcome (F64 × Option GoError))) (pre post : List F64),
      tempSeq (WatchF_loop (F64.fin 0) ticks).2 = pre ++ F64.fin 0 :: post →
      ∃ x ∈ pre, x ≠ F64.fin 0) := by
  refine ⟨WatchF_loop_suppressed, ?_⟩
  intro ticks pre post h
  have hc := (WatchF_loop_invariant (F64.fin 0) ticks).1
  rw [h] at hc
  cases pre with
  | nil =>
    rw [List.nil_append, List.chain_cons] at hc
    rw [F64.ne_zero_zero] at hc
    exact absurd hc.1 (by simp)
  | cons x pre =>
    rw [List.cons_append, List.chain_cons] at hc
    refine ⟨x, List.mem_cons_self _ _, ?_⟩
    intro hx
    rw [hx, F64.ne_zero_zero] at hc
    exact absurd hc.1 (by simp)

theorem C16_WatchF_zero_suppressed_witness :
    tempSeq (WatchF_loop (F64.fin 0)
      (returned [(F64.fin 0, none), (F64.fin 0, some "not ready to read"),
        (F64.fin 0, none)])).2 = [] :=
  (C16_WatchF_zero_suppressed.1
    [(F64.fin 0, none), (F64.fin 0, some "not ready to read"), (F64.fin 0, none)]
    (by
      intro r hr
      simp only [List.mem_cons, List.mem_singleton, List.not_mem_nil, or_false] at hr
      rcases hr with h | h | h
      · exact Or.inr h
      · exact Or.inl (by rw [h]; rfl)
      · exact Or.inr h)).2


/-- Claim C17: a content with exactly two non-empty lines, the first ending with `YES` and the
second ending with `t=` with no digit after it, matches the pattern with an empty capture;
`ParseFloat` rejects the empty text and `TempF` returns the error `invalid data value: ` and
no temperature. -/
theorem C17_TempF_empty_capture (b l1 l2 p : Bytes)
    (hlines : nonEmptyLines b = [l1, l2])
    (hyes : bytes_HasSuffix l1 (ascii "YES") = true)
    (hdata : l2 = p ++ ascii "t=") :
    TempF (Except.ok b) = Outcome.ret (F64.fin 0, some "invalid data value: ") := by
  have hl2 : l2 ∈ nonEmptyLines b := by rw [hlines]; simp
  have hnl : nl ∉ p := by
    intro h
    apply nonEmptyLines_no_nl b l2 hl2
    rw [hdata]
    simp [h]
  have hm := FindSubmatch_of_match p [] (by simp) hnl
  rw [List.append_nil] at hm
  rw [TempF_two_lines b l1 l2 hlines hyes, hdata, hm]
  rfl

theorem C17_TempF_empty_capture_witness :
    TempF (Except.ok (ascii "72 01 4b 46 7f ff 0e 10 57 : crc=57 YES\n72 01 4b 46 t=\n"))
      = Outcome.ret (F64.fin 0, some "invalid data value: ") :=
  C17_TempF_empty_capture _ (ascii "72 01 4b 46 7f ff 0e 10 57 : crc=57 YES")
    (ascii "72 01 4b 46 t=") (ascii "72 01 4b 46 ") (by decide) (by decide) (by decide)

theorem WatchF_loop_failures_then (last : F64) (ticks rest : List (Outcome (F64 × Option GoError)))
    (h : ∀ t ∈ ticks, ∃ x e, t = Outcome.ret (x, some e)) :
    (WatchF_loop last (ticks ++ rest)).1 = (WatchF_loop last rest).1 ∧
    tempSeq (WatchF_loop last (ticks ++ rest)).2 = tempSeq (WatchF_loop last rest).2 := by
  induction ticks with
  | nil => exact ⟨rfl, rfl⟩
  | cons t ts ih =>
    obtain ⟨x, e, rfl⟩ := h t (List.mem_cons_self _ _)
    rw [List.cons_append, WatchF_loop_cons_ret, WatchF_body_failure]
    simp only [tempSeq_append]
    exact ih (fun t ht => h t (List.mem_cons_of_mem _ ht))

/-- Claim C18: whenever `TempF` succeeds, the value it returns is finite and at least `32.0`
(the captured text is a run of digits, so the raw value is not negative); it is therefore
different from `0.0`, the initial `last` of `WatchF`, and the first successful reading of a
`WatchF` loop, the earlier ticks having failed, is sent on `tempchan`. -/
theorem C18_TempF_at_least_32 (file : Except GoError Bytes) (v : F64)
    (h : TempF file = Outcome.ret (v, none)) :
    (∃ r, v = F64.fin r ∧ 32 ≤ r) ∧ v ≠ F64.fin 0 ∧ F64.ne (F64.fin 0) v = true ∧
    ∀ pre : List (Except GoError Bytes),
      (∀ f ∈ pre, ∃ x e, TempF f = Outcome.ret (x, some e)) →
      tempSeq (WatchF (pre ++ [file])).2 = [v] := by
  obtain ⟨r, hr, h32⟩ := TempF_success_ge_32 file v h
  have hne0 : v ≠ F64.fin 0 := by
    rw [hr]
    intro hc
    injection hc with hc
    rw [hc] at h32
    norm_num at h32
  have hne : F64.ne (F64.fin 0) v = true := by
    rw [F64.ne_eq_true_iff]
    exact Or.inl (Ne.symm hne0)
  refine ⟨⟨r, hr, h32⟩, hne0, hne, ?_⟩
  intro pre hpre
  unfold WatchF
  rw [List.map_append]
  have hticks : ∀ t ∈ pre.map TempF, ∃ x e, t = Outcome.ret (x, some e) := by
    intro t ht
    obtain ⟨f, hf, rfl⟩ := List.mem_map.mp ht
    exact hpre f hf
  rw [(WatchF_loop_failures_then (F64.fin 0) (pre.map TempF) _ hticks).2]
  show tempSeq (WatchF_loop (F64.fin 0) [TempF file]).2 = [v]
  rw [h, WatchF_loop_cons_ret, WatchF_body_success]
  simp only [hne, if_true]
  rfl

theorem C18_TempF_at_least_32_witness :
    (∃ r, F64.fin 73.625 = F64.fin r ∧ 32 ≤ r) ∧ F64.fin 73.625 ≠ F64.fin 0 ∧
    F64.ne (F64.fin 0) (F64.fin 73.625) = true ∧
    ∀ pre : List (Except GoError Bytes),
      (∀ f ∈ pre, ∃ x e, TempF f = Outcome.ret (x, some e)) →
      tempSeq (WatchF (pre ++ [Except.ok
        (ascii "72 01 4b 46 7f ff 0e 10 57 : crc=57 YES\n72 01 4b 46 7f ff 0e 10 57 t=23125\n")])).2
        = [F64.fin 73.625] :=
  C18_TempF_at_least_32
    (Except.ok
      (ascii "72 01 4b 46 7f ff 0e 10 57 : crc=57 YES\n72 01 4b 46 7f ff 0e 10 57 t=23125\n"))
    (F64.fin 73.625) (by decide!)

theorem WatchF_loop_readings (last : F64) (vs : List F64) :
    tempSeq (WatchF_loop last (readings vs)).2 = changesSpec last vs := by
  induction vs generalizing last with
  | nil => rfl
  | cons v vs ih =>
    show tempSeq (WatchF_loop last (Outcome.ret (v, none) :: readings vs)).2 = _
    rw [WatchF_loop_cons_ret, WatchF_body_success, changesSpec]
    by_cases h : F64.ne last v = true
    · simp only [h, if_true, tempSeq_append, ih]
      rfl
    · simp only [h, if_false, tempSeq_append, ih]
      rfl

theorem changesSpec_of_chain (last : F64) (vs : List F64)
    (h : List.Chain (fun a b => F64.ne a b = true) last vs) : changesSpec last vs = vs := by
  induction vs generalizing last with
  | nil => rfl
  | cons v vs ih =>
    rw [List.chain_cons] at h
    rw [changesSpec, if_pos h.1, ih v h.2]

/-- Claim C19: the de-duplication of `WatchF` is idempotent. For every list of tick outcomes,
the values sent on `tempchan`, fed as the successful readings of a fresh loop, are all sent
again, in the same order. -/
theorem C19_WatchF_idempotent (ticks : List (Outcome (F64 × Option GoError))) :
    tempSeq (WatchF_loop (F64.fin 0)
        (readings (tempSeq (WatchF_loop (F64.fin 0) ticks).2))).2
      = tempSeq (WatchF_loop (F64.fin 0) ticks).2 := by
  rw [WatchF_loop_readings]
  exact changesSpec_of_chain _ _ (WatchF_loop_invariant (F64.fin 0) ticks).1

end DS18B20
